import Mathlib

/-!
Shallow embedding of the search engine in `src/app.py`: tokenizer, derived
search text, inverted-index construction, boolean-AND keyword resolution,
the field filter engine, and the paginator, together with theorems settling
the specification claims about them.
-/

/-- Characters matched by the character class of `re.findall(r"[a-zA-Z0-9_]+", ...)`
in `tokenize` (app.py:40). -/
def isWordChar (c : Char) : Bool :=
  (('a' ≤ c && c ≤ 'z') || ('A' ≤ c && c ≤ 'Z') || ('0' ≤ c && c ≤ '9') || c == '_')

/-- Maximal runs of word characters, the semantics of
`re.findall(r"[a-zA-Z0-9_]+", text)`.  `acc` holds the run in progress,
reversed; a non-word character closes the current run. -/
def wordRuns : List Char → List Char → List (List Char)
  | [], acc => if acc.isEmpty then [] else [acc.reverse]
  | c :: cs, acc =>
    if isWordChar c then wordRuns cs (c :: acc)
    else if acc.isEmpty then wordRuns cs []
    else acc.reverse :: wordRuns cs []

/-- Python `str.lower()` restricted to the ASCII case mapping. -/
def pyLower (s : String) : String := String.mk (s.data.map Char.toLower)

/-- `tokenize` (app.py:39-40): lowercase the input, then return every maximal
run of word characters, in order of occurrence. -/
def tokenize (text : String) : List String :=
  (wordRuns (pyLower text).data []).map String.mk

/-- Python `not query.strip()`: the string is empty or whitespace-only. -/
def isBlank (s : String) : Bool := s.data.all Char.isWhitespace

/-- A corpus record with the fields used by search and filtering.  A field
absent from the source JSON is modelled by the default that the code
supplies at each use site (`record.get(..., "")` / `record.get(..., [])`). -/
structure Record where
  scene_description_enriched : String := ""
  scene_interpretation : String := ""
  spatial_context : String := ""
  architectural_context : String := ""
  building_types : List String := []
  architectural_elements : List String := []
  persons : List String := []
  deriving DecidableEq

/-- The derived `_search_text` blob computed once at load time
(app.py:21-29): the seven fields joined with spaces, list fields themselves
space-joined, all lowercased. -/
def search_text (r : Record) : String :=
  pyLower (String.intercalate " "
    [r.scene_description_enriched, r.scene_interpretation, r.spatial_context,
     r.architectural_context, String.intercalate " " r.building_types,
     String.intercalate " " r.architectural_elements,
     String.intercalate " " r.persons])

/-- The inner loop of `build_inverted_index` (app.py:50-51): add position `p`
to the posting set of every token in `toks`. -/
def addTokens (idx : String → Finset ℕ) (p : ℕ) (toks : List String) :
    String → Finset ℕ :=
  toks.foldl (fun acc tok => fun t => if t = tok then insert p (acc t) else acc t) idx

/-- The `enumerate(data)` loop of `build_inverted_index`, with `p` the
position counter. -/
def buildAux : List Record → ℕ → (String → Finset ℕ) → String → Finset ℕ
  | [], _, idx => idx
  | r :: rs, p, idx => buildAux rs (p + 1) (addTokens idx p (tokenize (search_text r)))

/-- `build_inverted_index` (app.py:46-52).  The dictionary is modelled as a
total function; a token never inserted maps to `∅`, matching every read
`INDEX.get(t, set())` in the code. -/
def build_inverted_index (data : List Record) : String → Finset ℕ :=
  buildAux data 0 (fun _ => ∅)

/-- `search_keyword` (app.py:63-74) up to the final `list(...)` conversion:
the set of candidate positions.  `none` models the IndexError raised by
`tokens[0]` when the query is not blank but tokenizes to nothing. -/
def search_keyword (idx : String → Finset ℕ) (n : ℕ) (query : String) :
    Option (Finset ℕ) :=
  if isBlank query then some (Finset.range n)
  else
    match tokenize query with
    | [] => none
    | first :: rest => some (rest.foldl (fun results t => results ∩ idx t) (idx first))

/-- The possible return values of `search_keyword` including the final
conversion to a list: `list(range(n))` is the ascending enumeration, while
`list(results)` enumerates the set once each in an unspecified order. -/
def SearchKeywordReturns (idx : String → Finset ℕ) (n : ℕ) (query : String)
    (out : List ℕ) : Prop :=
  if isBlank query then out = List.range n
  else ∃ s, search_keyword idx n query = some s ∧ out.Nodup ∧ out.toFinset = s

/-- Does `hay` start with `needle`? (helper for the Python `in` test). -/
def startsWithChars : List Char → List Char → Bool
  | [], _ => true
  | _ :: _, [] => false
  | a :: as, b :: bs => a == b && startsWithChars as bs

/-- Does `hay` contain `needle` as a contiguous run? -/
def containsSub (needle : List Char) : List Char → Bool
  | [] => startsWithChars needle []
  | b :: bs => startsWithChars needle (b :: bs) || containsSub needle bs

/-- The Python substring test `needle in hay`. -/
def strIn (needle hay : String) : Bool := containsSub needle.data hay.data

/-- `filter_exact` (app.py:78-82): exact match for controlled vocabularies,
case-insensitive; an empty filter value imposes no constraint. -/
def filter_exact (value field_value : String) : Bool :=
  if value = "" then true
  else pyLower value == pyLower field_value

/-- `filter_contains` (app.py:84-87): case-insensitive substring test. -/
def filter_contains (text field_value : String) : Bool :=
  if text = "" then true
  else strIn (pyLower text) (pyLower field_value)

/-- `filter_list` (app.py:89-93): the filter value must appear, lowercased,
inside some single element of the list. -/
def filter_list (text : String) (values_list : List String) : Bool :=
  if text = "" then true
  else values_list.any fun v => strIn (pyLower text) (pyLower v)

/-- `filter_list_field` (app.py:105-110): containment in the space-joined
list.  Defined in the source but never called by `filter_results`. -/
def filter_list_field (text : String) (values_list : List String) : Bool :=
  if text = "" then true
  else strIn (pyLower text) (pyLower (String.intercalate " " values_list))

/-- The seven optional filter values of `filter_results`; `""` means the
filter is inactive (Python `not value` is true). -/
structure Filters where
  f_scene_desc : String := ""
  f_scene_interp : String := ""
  f_spatial : String := ""
  f_arch : String := ""
  f_buildings : String := ""
  f_elements : String := ""
  f_persons : String := ""

/-- The filter cascade applied to one record inside the loop of
`filter_results` (app.py:127-150). -/
def keepRecord (f : Filters) (rec : Record) : Bool :=
  filter_contains f.f_scene_desc rec.scene_description_enriched &&
  filter_contains f.f_scene_interp rec.scene_interpretation &&
  filter_exact f.f_spatial rec.spatial_context &&
  filter_exact f.f_arch rec.architectural_context &&
  filter_list f.f_buildings rec.building_types &&
  filter_list f.f_elements rec.architectural_elements &&
  filter_list f.f_persons rec.persons

/-- `filter_results` (app.py:113-152): walk `indices` in the given order,
look up `DATA[idx]` (`none` models the IndexError on an out-of-range
position) and keep the records that pass every active filter. -/
def filter_results (data : List Record) (indices : List ℕ) (f : Filters) :
    Option (List Record) :=
  match indices with
  | [] => some []
  | idx :: rest =>
    match data.get? idx with
    | none => none
    | some rec =>
      match filter_results data rest f with
      | none => none
      | some tail => some (if keepRecord f rec then rec :: tail else tail)

/-- `RESULTS_PER_PAGE` (app.py:7). -/
def RESULTS_PER_PAGE : ℕ := 48

/-- `total_pages` as computed in `search_page` (app.py:210). -/
def total_pages (total_results : ℕ) : ℕ :=
  max 1 ((total_results + RESULTS_PER_PAGE - 1) / RESULTS_PER_PAGE)

/-- The page slice `results_all[start:end]` (app.py:213-215), for a
1-indexed `page ≥ 1`. -/
def page_slice {α : Type} (results_all : List α) (page : ℕ) : List α :=
  (results_all.drop ((page - 1) * RESULTS_PER_PAGE)).take RESULTS_PER_PAGE

/-- Sample record: search text tokenizes to `["x", "a"]`. -/
def recA : Record := { scene_description_enriched := "x a" }

/-- Sample record: search text tokenizes to `["x", "b"]`. -/
def recB : Record := { scene_description_enriched := "x b" }

/-- A two-record sample corpus in which both records contain token `x`. -/
def dataAB : List Record := [recA, recB]

/-- Sample record whose `building_types` list has two elements whose
space-join is `"ab cd"`. -/
def recC3 : Record := { building_types := ["ab", "cd"] }

/-- Sample record for the exact-match filter check. -/
def recUrban : Record :=
  { spatial_context := "suburban area", scene_description_enriched := "urban decay" }

/-! ### Tokenizer lemmas -/

theorem wordRuns_flatten (xs : List Char) (acc : List Char) :
    (wordRuns xs acc).flatten = acc.reverse ++ xs.filter isWordChar := by
  induction xs generalizing acc with
  | nil =>
    by_cases h : acc.isEmpty <;>
      simp_all [wordRuns, List.isEmpty_iff, List.filter_nil]
  | cons c cs ih =>
    by_cases hc : isWordChar c
    · simp [wordRuns, hc, ih, List.filter_cons]
    · by_cases h : acc.isEmpty
      · have : acc = [] := List.isEmpty_iff.mp h
        subst this
        simp [wordRuns, hc, ih, List.filter_cons]
      · simp [wordRuns, hc, h, ih, List.filter_cons]

theorem wordRuns_tokens_wordlike (xs : List Char) (acc : List Char)
    (hacc : ∀ c ∈ acc, isWordChar c) :
    ∀ t ∈ wordRuns xs acc, t ≠ [] ∧ ∀ c ∈ t, isWordChar c := by
  induction xs generalizing acc with
  | nil =>
    intro t ht
    by_cases h : acc.isEmpty
    · simp [wordRuns, h] at ht
    · rw [show wordRuns [] acc = [acc.reverse] by simp [wordRuns, h],
        List.mem_singleton] at ht
      subst ht
      constructor
      · simpa [List.isEmpty_iff, List.reverse_eq_nil_iff] using h
      · intro d hd
        exact hacc d (List.mem_reverse.mp hd)
  | cons c cs ih =>
    intro t ht
    by_cases hc : isWordChar c
    · have hacc2 : ∀ d ∈ (c :: acc), isWordChar d := by
        intro d hd
        rcases List.mem_cons.mp hd with rfl | hd
        · exact hc
        · exact hacc d hd
      exact ih (c :: acc) hacc2 t (by simpa [wordRuns, hc] using ht)
    · by_cases h : acc.isEmpty
      · have hnil : acc = [] := List.isEmpty_iff.mp h
        subst hnil
        exact ih [] (by simp) t (by simpa [wordRuns, hc] using ht)
      · rw [show wordRuns (c :: cs) acc = acc.reverse :: wordRuns cs [] by
          simp [wordRuns, hc, h]] at ht
        rcases List.mem_cons.mp ht with rfl | ht2
        · constructor
          · simpa [List.isEmpty_iff, List.reverse_eq_nil_iff] using h
          · intro d hd
            exact hacc d (List.mem_reverse.mp hd)
        · exact ih [] (by simp) t ht2

theorem wordRuns_sep (c : Char) (hc : isWordChar c = false) (xs : List Char)
    (acc : List Char) (ys : List Char) :
    wordRuns (xs ++ c :: ys) acc = wordRuns xs acc ++ wordRuns ys [] := by
  induction xs generalizing acc with
  | nil =>
    by_cases h : acc.isEmpty <;>
      simp_all [wordRuns, List.isEmpty_iff]
  | cons x xs ih =>
    by_cases hx : isWordChar x
    · simp [wordRuns, hx, ih]
    · by_cases h : acc.isEmpty <;> simp [wordRuns, hx, h, ih]

theorem pyLower_data (s : String) : (pyLower s).data = s.data.map Char.toLower := rfl

theorem tokenize_append_sep (a b : String) :
    tokenize (a ++ " " ++ b) = tokenize a ++ tokenize b := by
  have hdata : (pyLower (a ++ " " ++ b)).data =
      (pyLower a).data ++ ' ' :: (pyLower b).data := by
    simp [pyLower_data, String.data_append,
      (show (" " : String).data = [' '] from rfl),
      (show Char.toLower ' ' = ' ' from by decide)]
  show (wordRuns (pyLower (a ++ " " ++ b)).data []).map String.mk =
      (wordRuns (pyLower a).data []).map String.mk ++
        (wordRuns (pyLower b).data []).map String.mk
  rw [hdata, wordRuns_sep ' ' (by decide), List.map_append]

theorem isWhitespace_not_wordChar (c : Char) (h : c.isWhitespace = true) :
    isWordChar c.toLower = false := by
  simp [Char.isWhitespace] at h
  rcases h with ((rfl | rfl) | rfl) | rfl <;> decide

theorem wordRuns_of_no_wordChar (xs : List Char)
    (h : ∀ c ∈ xs, isWordChar c = false) : wordRuns xs [] = [] := by
  induction xs with
  | nil => simp [wordRuns]
  | cons c cs ih =>
    have hc := h c (by simp)
    rw [show wordRuns (c :: cs) [] = wordRuns cs [] by simp [wordRuns, hc]]
    exact ih (fun d hd => h d (by simp [hd]))

theorem tokenize_eq_nil_of_blank (s : String) (h : isBlank s = true) :
    tokenize s = [] := by
  rw [tokenize, wordRuns_of_no_wordChar, List.map_nil]
  intro c hc
  rw [pyLower_data] at hc
  rcases List.mem_map.mp hc with ⟨d, hd, rfl⟩
  exact isWhitespace_not_wordChar d (List.all_eq_true.mp h d hd)

theorem not_blank_of_tokenize_ne_nil (s : String) (h : tokenize s ≠ []) :
    isBlank s = false := by
  cases hb : isBlank s with
  | false => rfl
  | true => exact absurd (tokenize_eq_nil_of_blank s hb) h

/-! ### Inverted-index lemmas -/

theorem mem_addTokens (toks : List String) (idx : String → Finset ℕ) (p q : ℕ)
    (t : String) :
    q ∈ addTokens idx p toks t ↔ q ∈ idx t ∨ (q = p ∧ t ∈ toks) := by
  induction toks generalizing idx with
  | nil => simp [addTokens]
  | cons tok toks ih =>
    show q ∈ addTokens (fun u => if u = tok then insert p (idx u) else idx u) p toks t ↔ _
    rw [ih]
    show q ∈ (if t = tok then insert p (idx t) else idx t) ∨ (q = p ∧ t ∈ toks) ↔ _
    by_cases htok : t = tok
    · subst htok
      rw [if_pos rfl]
      constructor
      · rintro (hins | ⟨rfl, _⟩)
        · rcases Finset.mem_insert.mp hins with rfl | hq
          · exact Or.inr ⟨rfl, List.mem_cons_self _ _⟩
          · exact Or.inl hq
        · exact Or.inr ⟨rfl, List.mem_cons_self _ _⟩
      · rintro (hq | ⟨rfl, _⟩)
        · exact Or.inl (Finset.mem_insert.mpr (Or.inr hq))
        · exact Or.inl (Finset.mem_insert_self _ _)
    · rw [if_neg htok]
      constructor
      · rintro (hq | ⟨rfl, hmem⟩)
        · exact Or.inl hq
        · exact Or.inr ⟨rfl, List.mem_cons_of_mem tok hmem⟩
      · rintro (hq | ⟨rfl, hmem⟩)
        · exact Or.inl hq
        · rcases List.mem_cons.mp hmem with h | h
          · exact absurd h htok
          · exact Or.inr ⟨rfl, h⟩

theorem mem_buildAux (rs : List Record) (p q : ℕ) (idx : String → Finset ℕ)
    (t : String) :
    q ∈ buildAux rs p idx t ↔
      q ∈ idx t ∨ ∃ j rec, rs.get? j = some rec ∧ q = p + j ∧
        t ∈ tokenize (search_text rec) := by
  induction rs generalizing p idx with
  | nil => simp [buildAux]
  | cons r rs ih =>
    show q ∈ buildAux rs (p + 1) (addTokens idx p (tokenize (search_text r))) t ↔ _
    rw [ih, mem_addTokens]
    constructor
    · rintro ((hq | ⟨hq, ht⟩) | ⟨j, rec, hget, hq, ht⟩)
      · exact Or.inl hq
      · exact Or.inr ⟨0, r, rfl, by omega, ht⟩
      · exact Or.inr ⟨j + 1, rec, hget, by omega, ht⟩
    · rintro (hq | ⟨j, rec, hget, hq, ht⟩)
      · exact Or.inl (Or.inl hq)
      · cases j with
        | zero =>
          have hrec : r = rec := by
            simpa using hget
          subst hrec
          exact Or.inl (Or.inr ⟨by omega, ht⟩)
        | succ j =>
          exact Or.inr ⟨j, rec, by simpa using hget, by omega, ht⟩

/-- C1: a position `p` is in the posting set of token `t` iff `t` occurs among
the tokens of the search text of the record stored at position `p`; posting
sets are sets of positions, so `p` appears at most once however often `t`
repeats inside the record. -/
theorem C1_index_posting_iff (data : List Record) (t : String) (p : ℕ) :
    p ∈ build_inverted_index data t ↔
      ∃ rec, data.get? p = some rec ∧ t ∈ tokenize (search_text rec) := by
  rw [build_inverted_index, mem_buildAux]
  constructor
  · rintro (h | ⟨j, rec, hget, hq, ht⟩)
    · exact absurd h (Finset.not_mem_empty p)
    · exact ⟨rec, by rwa [show p = j by omega], ht⟩
  · rintro ⟨rec, hget, ht⟩
    exact Or.inr ⟨p, rec, hget, by omega, ht⟩

/-! ### Query-resolver lemmas and claims -/

/-- C5: the punctuation-only query `"???"` is neither empty nor
whitespace-only, yet tokenizes to zero tokens, so keyword resolution hits
the `tokens[0]` access on an empty list (modelled as `none`) instead of
returning a defined result. -/
theorem C5_zero_token_query_faults :
    isBlank "???" = false ∧ tokenize "???" = [] ∧
      ∀ (idx : String → Finset ℕ) (n : ℕ), search_keyword idx n "???" = none := by
  refine ⟨by decide, by decide, fun idx n => ?_⟩
  simp [search_keyword, show isBlank "???" = false from by decide,
    show tokenize "???" = [] from by decide]

/-- C6: resolving an empty or whitespace-only query returns exactly the
positions `0 .. N-1`, each exactly once, with no keyword filtering. -/
theorem C6_blank_query_all_positions (idx : String → Finset ℕ) (n : ℕ)
    (q : String) (h : isBlank q = true) :
    SearchKeywordReturns idx n q (List.range n) ∧
      ∀ out, SearchKeywordReturns idx n q out →
        out = List.range n ∧ out.Nodup ∧ ∀ p, p ∈ out ↔ p < n := by
  constructor
  · simp [SearchKeywordReturns, h]
  · intro out hout
    simp only [SearchKeywordReturns, h, if_true] at hout
    subst hout
    exact ⟨rfl, List.nodup_range n, fun p => List.mem_range⟩

theorem C6_blank_query_witness :
    SearchKeywordReturns (fun _ => (∅ : Finset ℕ)) 2 "" (List.range 2) :=
  (C6_blank_query_all_positions (fun _ => ∅) 2 "" (by decide)).1

/-- C2: for single-token queries `a` and `b`, resolving the query `"a b"`
yields the intersection of the posting sets resolved for `a` and for `b`,
the result is unchanged when the tokens are swapped, and a token with an
empty posting set (absent from the index) makes the result empty. -/
theorem C2_and_semantics (idx : String → Finset ℕ) (n : ℕ) (a b ta tb : String)
    (ha : tokenize a = [ta]) (hb : tokenize b = [tb]) :
    search_keyword idx n a = some (idx ta) ∧
    search_keyword idx n b = some (idx tb) ∧
    search_keyword idx n (a ++ " " ++ b) = some (idx ta ∩ idx tb) ∧
    search_keyword idx n (b ++ " " ++ a) = some (idx ta ∩ idx tb) ∧
    ((idx ta = ∅ ∨ idx tb = ∅) → idx ta ∩ idx tb = ∅) := by
  have hba : isBlank a = false := not_blank_of_tokenize_ne_nil a (by simp [ha])
  have hbb : isBlank b = false := not_blank_of_tokenize_ne_nil b (by simp [hb])
  have hab : tokenize (a ++ " " ++ b) = [ta, tb] := by
    rw [tokenize_append_sep, ha, hb]
    rfl
  have hba2 : tokenize (b ++ " " ++ a) = [tb, ta] := by
    rw [tokenize_append_sep, hb, ha]
    rfl
  have habb : isBlank (a ++ " " ++ b) = false :=
    not_blank_of_tokenize_ne_nil _ (by simp [hab])
  have hbab : isBlank (b ++ " " ++ a) = false :=
    not_blank_of_tokenize_ne_nil _ (by simp [hba2])
  refine ⟨?_, ?_, ?_, ?_, ?_⟩
  · simp [search_keyword, hba, ha]
  · simp [search_keyword, hbb, hb]
  · simp [search_keyword, habb, hab]
  · simp [search_keyword, hbab, hba2, Finset.inter_comm]
  · rintro (h | h) <;> simp [h]

theorem C2_and_semantics_witness :
    search_keyword (build_inverted_index dataAB) 2 ("a" ++ " " ++ "b") =
      some (build_inverted_index dataAB "a" ∩ build_inverted_index dataAB "b") :=
  (C2_and_semantics (build_inverted_index dataAB) 2 "a" "b" "a" "b"
    (by decide) (by decide)).2.2.1

theorem foldl_inter_subset (ts : List String) (idx : String → Finset ℕ)
    (s : Finset ℕ) :
    ts.foldl (fun r u => r ∩ idx u) s ⊆ s := by
  induction ts generalizing s with
  | nil => simp
  | cons t ts ih =>
    rw [List.foldl_cons]
    exact (ih (s ∩ idx t)).trans Finset.inter_subset_left

theorem mem_index_lt (data : List Record) (t : String) (p : ℕ)
    (h : p ∈ build_inverted_index data t) : p < data.length := by
  rw [build_inverted_index, mem_buildAux] at h
  rcases h with h | ⟨j, rec, hget, hq, _⟩
  · exact absurd h (Finset.not_mem_empty p)
  · rcases List.get?_eq_some.mp hget with ⟨hlt, _⟩
    omega

theorem filter_results_isSome (data : List Record) (indices : List ℕ)
    (f : Filters) (h : ∀ i ∈ indices, i < data.length) :
    (filter_results data indices f).isSome = true := by
  induction indices with
  | nil => rfl
  | cons i rest ih =>
    have hi : i < data.length := h i (by simp)
    obtain ⟨rec, hrec⟩ : ∃ rec, data.get? i = some rec :=
      ⟨data.get ⟨i, hi⟩, List.get?_eq_some.mpr ⟨hi, rfl⟩⟩
    have hrest := ih (fun j hj => h j (by simp [hj]))
    rcases Option.isSome_iff_exists.mp hrest with ⟨tail, htail⟩
    have hrec2 : data[i]? = some rec := by
      rw [← List.get?_eq_getElem?]
      exact hrec
    simp [filter_results, hrec, hrec2, htail]

/-- C10: every position produced by a keyword resolution that returns
normally, over the index built from the corpus, is smaller than the corpus
length, so the filter engine's `DATA[idx]` lookups never go out of bounds. -/
theorem C10_positions_in_range (data : List Record) (q : String) (s : Finset ℕ)
    (h : search_keyword (build_inverted_index data) data.length q = some s) :
    (∀ p ∈ s, p < data.length) ∧
      ∀ (out : List ℕ) (f : Filters), out.toFinset = s →
        (filter_results data out f).isSome = true := by
  have hmem : ∀ p ∈ s, p < data.length := by
    intro p hp
    simp only [search_keyword] at h
    split at h
    · obtain rfl : Finset.range data.length = s := by
        exact Option.some_injective _ h
      exact Finset.mem_range.mp hp
    · split at h
      · exact absurd h (by simp)
      · obtain rfl := Option.some_injective _ h
        rename_i first rest heq
        have hsub := foldl_inter_subset rest (build_inverted_index data)
          (build_inverted_index data first)
        exact mem_index_lt data first p (hsub hp)
  refine ⟨hmem, fun out f hout => ?_⟩
  refine filter_results_isSome data out f (fun i hi => ?_)
  exact hmem i (by rw [← hout]; exact List.mem_toFinset.mpr hi)

theorem C10_positions_in_range_witness :
    (filter_results dataAB [1, 0] {}).isSome = true :=
  (C10_positions_in_range dataAB "x" {1, 0} (by rfl)).2 [1, 0] {} (by decide)

/-! ### Tokenizer claim -/

/-- C9: `tokenize` lowercases its input and returns, in order of occurrence,
the maximal runs of ASCII letters, digits and underscore, discarding every
other character: the concatenation of the returned tokens is exactly the
sequence of word characters of the lowercased input, every token is a
non-empty string of word characters, and the two quoted examples hold. -/
theorem C9_tokenize_spec :
    tokenize "Foo_Bar 123!" = ["foo_bar", "123"] ∧
    tokenize "" = [] ∧
    ∀ s : String,
      ((tokenize s).map String.data).flatten =
          (s.data.map Char.toLower).filter isWordChar ∧
      ∀ t ∈ tokenize s, t.data ≠ [] ∧ ∀ c ∈ t.data, isWordChar c := by
  refine ⟨by decide, by decide, fun s => ⟨?_, ?_⟩⟩
  · rw [tokenize, List.map_map]
    have hcomp : String.data ∘ String.mk = id := rfl
    rw [hcomp, List.map_id, wordRuns_flatten]
    simp [pyLower_data]
  · intro t ht
    rcases List.mem_map.mp ht with ⟨run, hrun, rfl⟩
    have h := wordRuns_tokens_wordlike (pyLower s).data [] (by simp) run hrun
    exact ⟨h.1, h.2⟩

/-! ### Filter-engine lemmas and claims -/

theorem filter_results_single (data : List Record) (p : ℕ) (rec : Record)
    (hget : data.get? p = some rec) (f : Filters) :
    filter_results data [p] f =
      some (if keepRecord f rec then [rec] else []) := by
  have hget2 : data[p]? = some rec := by
    rw [← List.get?_eq_getElem?]
    exact hget
  simp [filter_results, hget, hget2]

/-- C3 fails on the code: `filter_results` delegates list fields to
`filter_list`, which tests containment inside each single element, not in
the space-joined string that `filter_list_field` would build; a filter value
spanning two adjacent elements matches the joined string, yet the engine
drops the record. -/
theorem C3_counterexample :
    recC3.building_types = ["ab", "cd"] ∧
    filter_list_field "ab cd" ["ab", "cd"] = true ∧
    filter_results [recC3] [0] { f_buildings := "ab cd" } = some [] := by
  exact ⟨by decide, by decide, by decide⟩

/-- C3 amended: for a non-empty filter value on a list field, the engine
keeps the record iff the value is, case-insensitively, a substring of at
least one single element of the list; a value spanning two adjacent
elements does not match. -/
theorem C3_list_filter_per_element (data : List Record) (p : ℕ) (rec : Record)
    (hget : data.get? p = some rec) (v : String) (hv : v ≠ "") :
    (filter_results data [p] { f_buildings := v } =
      some (if ∃ e ∈ rec.building_types, strIn (pyLower v) (pyLower e) = true
        then [rec] else [])) ∧
    (filter_results data [p] { f_elements := v } =
      some (if ∃ e ∈ rec.architectural_elements, strIn (pyLower v) (pyLower e) = true
        then [rec] else [])) ∧
    (filter_results data [p] { f_persons := v } =
      some (if ∃ e ∈ rec.persons, strIn (pyLower v) (pyLower e) = true
        then [rec] else [])) := by
  refine ⟨?_, ?_, ?_⟩ <;>
    (rw [filter_results_single data p rec hget]
     congr 1
     apply if_congr ?_ rfl rfl
     simp [keepRecord, filter_contains, filter_exact, filter_list, hv,
       List.any_eq_true])

theorem C3_list_filter_witness :
    filter_results [recC3] [0] { f_buildings := "ab" } =
      some (if ∃ e ∈ recC3.building_types, strIn (pyLower "ab") (pyLower e) = true
        then [recC3] else []) :=
  (C3_list_filter_per_element [recC3] 0 recC3 rfl "ab" (by decide)).1

/-- C8: an active filter on the controlled-vocabulary field
`spatial_context` keeps a record only under case-insensitive exact equality,
so `"urban"` does not match `"suburban area"`, while the same value against
the free-text field `scene_description_enriched` keeps any record containing
it as a case-insensitive substring, so `"urban"` matches `"urban decay"`. -/
theorem C8_exact_vs_containment (data : List Record) (p : ℕ) (rec : Record)
    (hget : data.get? p = some rec) (v : String) (hv : v ≠ "") :
    filter_exact "urban" "suburban area" = false ∧
    filter_contains "urban" "urban decay" = true ∧
    (filter_results data [p] { f_spatial := v } =
      some (if pyLower v = pyLower rec.spatial_context then [rec] else [])) ∧
    (filter_results data [p] { f_scene_desc := v } =
      some (if strIn (pyLower v) (pyLower rec.scene_description_enriched) = true
        then [rec] else [])) := by
  refine ⟨by decide, by decide, ?_, ?_⟩ <;>
    (rw [filter_results_single data p rec hget]
     congr 1
     apply if_congr ?_ rfl rfl
     simp [keepRecord, filter_contains, filter_exact, filter_list, hv])

theorem C8_exact_vs_containment_witness :
    filter_results [recUrban] [0] { f_spatial := "urban" } =
      some (if pyLower "urban" = pyLower recUrban.spatial_context
        then [recUrban] else []) :=
  (C8_exact_vs_containment [recUrban] 0 recUrban rfl "urban" (by decide)).2.2.1

/-- C4 fails on the code: `filter_results` walks the candidate list in the
order it receives it, and `search_keyword` hands it `list(results)`, an
arbitrary enumeration of the candidate set.  Enumerating the candidates of
query `"x"` as `[1, 0]` is a legitimate return, and the engine then yields
the records in descending position order. -/
theorem C4_counterexample :
    SearchKeywordReturns (build_inverted_index dataAB) dataAB.length "x" [1, 0] ∧
    filter_results dataAB [1, 0] {} = some [recB, recA] ∧
    ¬ List.Sublist [recB, recA] dataAB := by
  refine ⟨?_, by decide, by decide⟩
  rw [SearchKeywordReturns, if_neg (by decide)]
  exact ⟨{1, 0}, rfl, by decide, by decide⟩

theorem filter_results_sublist_drop (data : List Record) (f : Filters)
    (indices : List ℕ) :
    ∀ (lo : ℕ) (out : List Record), List.Pairwise (· < ·) indices →
      (∀ i ∈ indices, lo ≤ i) → filter_results data indices f = some out →
      List.Sublist out (data.drop lo) := by
  induction indices with
  | nil =>
    intro lo out _ _ h
    obtain rfl : ([] : List Record) = out := by simpa [filter_results] using h
    simp
  | cons i rest ih =>
    intro lo out hpw hlo h
    simp only [filter_results] at h
    rcases hget : data.get? i with _ | rec
    · rw [hget] at h
      exact absurd h (by simp)
    · rw [hget] at h
      rcases hrec : filter_results data rest f with _ | tail
      · rw [hrec] at h
        exact absurd h (by simp)
      · rw [hrec] at h
        have hcons := List.pairwise_cons.mp hpw
        have htail : List.Sublist tail (data.drop (i + 1)) :=
          ih (i + 1) tail hcons.2 (fun j hj => hcons.1 j hj) hrec
        have hlt : i < data.length := (List.get?_eq_some.mp hget).1
        have hgetElem : data[i]? = some rec := by
          rw [← List.get?_eq_getElem?]
          exact hget
        have hi : data[i] = rec := by
          rw [List.getElem?_eq_getElem hlt] at hgetElem
          exact Option.some_injective _ hgetElem
        have hdrop : data.drop i = rec :: data.drop (i + 1) := by
          rw [List.drop_eq_getElem_cons hlt, hi]
        have hsub2 : List.Sublist out (data.drop i) := by
          obtain rfl : (if keepRecord f rec then rec :: tail else tail) = out :=
            Option.some_injective _ h
          rw [hdrop]
          by_cases hk : keepRecord f rec
          · rw [if_pos hk]
            exact List.Sublist.cons₂ rec htail
          · rw [if_neg hk]
            exact List.Sublist.cons rec htail
        have hmono : List.Sublist (data.drop i) (data.drop lo) := by
          have hile : lo ≤ i := hlo i (by simp)
          have heq : data.drop i = List.drop (i - lo) (data.drop lo) := by
            rw [List.drop_drop]
            congr 1
            omega
          rw [heq]
          exact List.drop_sublist _ _
        exact hsub2.trans hmono

/-- C4 amended: the filter engine preserves the iteration order of its input
index sequence; whenever the candidate positions are iterated in ascending
order (as in the empty-query path), the final results are a sublist of the
corpus, i.e. ordered by ascending original load-time position — but an
enumeration of the candidate set in another order yields that other order. -/
theorem C4_order_from_ascending_input (data : List Record) (indices : List ℕ)
    (f : Filters) (out : List Record) (hsorted : List.Pairwise (· < ·) indices)
    (h : filter_results data indices f = some out) :
    List.Sublist out data := by
  have hs := filter_results_sublist_drop data f indices 0 out hsorted
    (fun i _ => Nat.zero_le i) h
  simpa using hs

theorem C4_order_witness : List.Sublist [recA, recB] dataAB :=
  C4_order_from_ascending_input dataAB [0, 1] {} [recA, recB]
    (by decide) (by decide)

/-! ### Paginator lemmas and claim -/

theorem ceil_eq_div_up (t : ℕ) : ⌈(t : ℚ) / 48⌉₊ = (t + 47) / 48 := by
  apply le_antisymm
  · rw [Nat.ceil_le, div_le_iff₀ (by norm_num : (0 : ℚ) < 48)]
    have h : t ≤ 48 * ((t + 47) / 48) := by omega
    calc (t : ℚ) ≤ ((48 * ((t + 47) / 48) : ℕ) : ℚ) := by exact_mod_cast h
      _ = ((t + 47) / 48 : ℕ) * 48 := by push_cast; ring
  · have h := Nat.le_ceil ((t : ℚ) / 48)
    rw [div_le_iff₀ (by norm_num : (0 : ℚ) < 48)] at h
    have h3 : t ≤ ⌈(t : ℚ) / 48⌉₊ * 48 := by exact_mod_cast h
    omega

/-- C7: the paginator computes `total_pages = max 1 ⌈total_results / 48⌉`, a
1-indexed page beyond `total_pages` yields an empty slice without faulting,
and for 100 results: 3 total pages, 48 items on page 1, 4 on page 3, 0 on
page 4. -/
theorem C7_pagination (l : List Record) (page : ℕ)
    (hpage : total_pages l.length < page) :
    total_pages l.length = max 1 ⌈(l.length : ℚ) / 48⌉₊ ∧
    page_slice l page = [] ∧
    total_pages 100 = 3 ∧
    (page_slice (List.range 100) 1).length = 48 ∧
    (page_slice (List.range 100) 3).length = 4 ∧
    page_slice (List.range 100) 4 = [] := by
  refine ⟨?_, ?_, by decide, by decide, by decide, by decide⟩
  · rw [ceil_eq_div_up]
    simp only [total_pages, RESULTS_PER_PAGE]
    omega
  · have h1 : l.length ≤ 48 * total_pages l.length := by
      have hq : l.length ≤ 48 * ((l.length + 47) / 48) := by omega
      have hm : (l.length + 47) / 48 ≤ total_pages l.length := by
        simp only [total_pages, RESULTS_PER_PAGE]
        have hmr := Nat.le_max_right 1 ((l.length + 48 - 1) / 48)
        omega
      calc l.length ≤ 48 * ((l.length + 47) / 48) := hq
        _ ≤ 48 * total_pages l.length := Nat.mul_le_mul_left 48 hm
    have h2 : l.length ≤ (page - 1) * RESULTS_PER_PAGE := by
      have h3 : total_pages l.length ≤ page - 1 := by omega
      have h4 : 48 * total_pages l.length ≤ 48 * (page - 1) :=
        Nat.mul_le_mul_left 48 h3
      simp only [RESULTS_PER_PAGE]
      omega
    rw [page_slice, List.drop_eq_nil_of_le h2, List.take_nil]

theorem C7_pagination_witness : page_slice (List.replicate 100 recA) 4 = [] :=
  (C7_pagination (List.replicate 100 recA) 4 (by decide)).2.1
